import Mathlib

/-!
Verification of the RAGFlow "Brain Transplant" normalization-and-chunking design.

The embedding below follows the repository's own code:
* the structure-aware chunking engine is the stack-based header-tracking
  scan (`for line in lines: ...`) given in the architecture document
  ("Algorithm: Stack-Based Header Tracking");
* `StandardizedDocument` with its `content` setter, lazy `elements`
  getter and `populate_elements` follows the dataclass in
  "The Standardized IR (Contract)";
* the retry policy and the `header_path` metadata normalizer are modelled
  from the specification, since only their contracts appear in the sources.

Strings are embedded as `List Char`; a line is a `List Char` without the
terminating newline. Python's default-whitespace `strip`/`lstrip` are
embedded over the ASCII whitespace set.
-/

namespace Ragflow

/-- Python's default whitespace characters (`str.strip`/`str.lstrip`/`\s`). -/
def isWs (c : Char) : Bool :=
  c == ' ' || c == '\t' || c == '\n' || c == '\r' || c == Char.ofNat 11 || c == Char.ofNat 12

/-- Python truthiness of `s.strip()`, negated: the string contains no
non-whitespace character. -/
def blankStr (s : List Char) : Bool := s.all isWs

/-- Python `line.lstrip()`. -/
def lstrip (l : List Char) : List Char := l.dropWhile isWs

/-- Three backticks, the code-fence delimiter. -/
def fenceMark : List Char := List.replicate 3 (Char.ofNat 96)

/-- The fence test of the loop: `line.lstrip().startswith(fence)`. -/
def isFence (l : List Char) : Bool := fenceMark.isPrefixOf (lstrip l)

/-- Helper for `parseHeader`: `k` hashes already consumed. -/
def parseHeaderAux (k : Nat) : List Char → Option (Nat × List Char)
  | [] => none
  | c :: t =>
    if c = '#' then parseHeaderAux (k + 1) t
    else if isWs c then some (k, t) else none

/-- The header pattern `re.match(r"^(#+)\s(.*)", line)`: a maximal
nonempty run of `#` followed by one whitespace character; returns
(level, text). -/
def parseHeader (l : List Char) : Option (Nat × List Char) :=
  match l with
  | c :: rest => if c = '#' then parseHeaderAux 1 rest else none
  | [] => none

/-- The reset buffer after a header: `f"\x7b'#' * level\x7d \x7btext\x7d"`. -/
def headerLine (n : Nat) (t : List Char) : List Char :=
  List.replicate n '#' ++ ' ' :: t

/-- An emitted chunk: its text and its root-first header path. -/
structure Chunk where
  text : List Char
  header_path : List (List Char)
deriving DecidableEq

/-- The scan state: `header_stack` is stored top-of-stack first (the
Python list appends at the end; the head of this list is that end),
`current_section` is the accumulated buffer, `code_block` the
fence flag, and `chunks` the emitted chunks in emission order. -/
structure ScanState where
  header_stack : List (Nat × List Char)
  current_section : List Char
  code_block : Bool
  chunks : List Chunk
deriving DecidableEq

/-- Root-first header path of a (top-first) stack. -/
def pathOf (stk : List (Nat × List Char)) : List (List Char) :=
  (stk.map Prod.snd).reverse

/-- One iteration of the scan loop, translated clause by clause:
fence lines toggle `code_block` and are appended; in normal mode a
header emits the non-blank buffer (tagged with the pre-transition
stack), pops frames with level `≥ n`, pushes `(n, t)` and resets the
buffer to the header line; every other line is appended. -/
def scanStep (s : ScanState) (l : List Char) : ScanState :=
  if isFence l then
    { s with code_block := !s.code_block,
             current_section := s.current_section ++ l ++ ['\n'] }
  else if s.code_block then
    { s with current_section := s.current_section ++ l ++ ['\n'] }
  else
    match parseHeader l with
    | some (n, t) =>
        { header_stack := (n, t) :: s.header_stack.dropWhile (fun f => decide (n ≤ f.1)),
          current_section := headerLine n t ++ ['\n'],
          code_block := false,
          chunks := if blankStr s.current_section then s.chunks
                    else s.chunks ++ [{ text := s.current_section,
                                        header_path := pathOf s.header_stack }] }
    | none => { s with current_section := s.current_section ++ l ++ ['\n'] }

/-- Initial scan state. -/
def initState : ScanState :=
  { header_stack := [], current_section := [], code_block := false, chunks := [] }

/-- End of input: emit the final buffer if it is non-blank. -/
def finishScan (s : ScanState) : List Chunk :=
  if blankStr s.current_section then s.chunks
  else s.chunks ++ [{ text := s.current_section, header_path := pathOf s.header_stack }]

/-- Run the whole scan over a list of lines. -/
def chunkLines (ls : List (List Char)) : List Chunk :=
  finishScan (ls.foldl scanStep initState)

/-- Python `content.split(sep)` for a one-character separator. -/
def splitSep (sep : Char) : List Char → List (List Char)
  | [] => [[]]
  | c :: rest =>
    if c == sep then [] :: splitSep sep rest
    else
      match splitSep sep rest with
      | [] => [[c]]
      | h :: t => (c :: h) :: t

/-- Chunk a whole content string (split into lines on newline). -/
def chunkContent (c : List Char) : List Chunk :=
  chunkLines (splitSep '\n' c)

/-- Interleave a separator between pieces (inverse of `splitSep`). -/
def interSep (sep : Char) : List (List Char) → List Char
  | [] => []
  | [x] => x
  | x :: y :: t => x ++ sep :: interSep sep (y :: t)

/-- Each line re-emitted with its trailing newline, concatenated. -/
def joinNl : List (List Char) → List Char
  | [] => []
  | l :: rest => l ++ '\n' :: joinNl rest

/-- Concatenation of the chunk texts in emission order. -/
def chunkTextCat : List Chunk → List Char
  | [] => []
  | c :: cs => c.text ++ chunkTextCat cs

/-- A line is a canonical header of level at most 6: if it parses as a
header `(n, t)` then it is written with a single space between the
hashes and the text and `n ≤ 6`. Non-header lines pass vacuously. -/
def canonicalHeaderLine (l : List Char) : Bool :=
  match parseHeader l with
  | some (n, t) => (l == headerLine n t) && decide (n ≤ 6)
  | none => true

/-- Root-to-current stack recorded at each header transition and at end
of input. This follows the spec's words for the `header_path` law and is
compared against the engine's output. -/
def specPathsFrom (stk : List (Nat × List Char)) : List (List Char) → List (List (List Char))
  | [] => [pathOf stk]
  | l :: rest =>
    match parseHeader l with
    | some (n, t) =>
        pathOf stk :: specPathsFrom ((n, t) :: stk.dropWhile (fun f => decide (n ≤ f.1))) rest
    | none => specPathsFrom stk rest

/-! Section: the Standardized Document IR

Translated from the `StandardizedDocument` dataclass: `contentVal` is the
backing field `_content`, `elementsCache` the backing field `_elements`
(`none` means "not yet computed"). The body of `_parse_elements` is
elided (`...`) in the source, so the lazy getter takes the parsing
function as an explicit parameter. -/

/-- A semantic element extracted from the document (`DocumentElement`).
The element-local `metadata` dict plays no role here and is omitted. -/
structure DocumentElement where
  type : List Char
  content : List Char
  level : Option Nat
deriving DecidableEq

/-- The contract between parsers and templates (`StandardizedDocument`). -/
structure StandardizedDocument where
  contentVal : List Char
  metadata : List (List Char × List Char)
  elementsCache : Option (List DocumentElement)
deriving DecidableEq

/-- The `content` property getter. -/
def contentGet (d : StandardizedDocument) : List Char := d.contentVal

/-- The `content` property setter: replaces the text and invalidates the
cached elements (`self._elements = None`). -/
def contentSet (d : StandardizedDocument) (v : List Char) : StandardizedDocument :=
  { d with contentVal := v, elementsCache := none }

/-- The `elements` property getter: return the cache if present,
otherwise derive the elements from `_content` with `_parse_elements`
(passed as `parseEls`), cache and return them. Returns the elements
together with the updated document. -/
def elementsGet (parseEls : List Char → List DocumentElement) (d : StandardizedDocument) :
    List DocumentElement × StandardizedDocument :=
  match d.elementsCache with
  | some es => (es, d)
  | none => (parseEls d.contentVal, { d with elementsCache := some (parseEls d.contentVal) })

/-- Operation `populate_elements`: forcefully seed the cache with the given list.
The source body is `self._elements = elements`; the schema validation is
only an `(Optional)` comment there and is not performed. -/
def populate_elements (d : StandardizedDocument) (es : List DocumentElement) :
    StandardizedDocument :=
  { d with elementsCache := some es }

/-- The recognized element `type` tags. -/
def recognizedTypes : List (List Char) :=
  [("heading").toList, ("paragraph").toList, ("table").toList,
   ("code_block").toList, ("list").toList, ("image").toList]

/-- Shape validity of one element as the spec words it: a recognized
`type`, and headings carry a `level` in 1..6. Used to exhibit that
`populate_elements` accepts shape-invalid elements. -/
def validElement (e : DocumentElement) : Bool :=
  recognizedTypes.contains e.type &&
    (!(e.type == ("heading").toList) ||
      (match e.level with
       | some n => decide (1 ≤ n) && decide (n ≤ 6)
       | none => false))

/-! Section: retry policy (Parser Client)

Modelled from the spec: the retry loop of the Parser Client
(`rag/parsers/base.py`) is not among the sources; only its policy is
stated ("Exponential backoff (max_attempts=3, total_deadline=30s,
initial_delay=1s, multiplier=2x, max_delay=5s)", retry on retryable
errors until `max_attempts` or `total_deadline`, surface the last error,
non-retryable errors surface immediately). Times are in seconds. -/

/-- Outcome of one backend invocation. -/
inductive ParseOutcome
  | ok
  | retryableErr
  | permanentErr
deriving DecidableEq

/-- Modelled from the spec: the retry policy attached to a Parser Client
invocation. -/
structure RetryPolicy where
  max_attempts : Nat
  total_deadline : Nat
  initial_delay : Nat
  backoff_multiplier : Nat
  max_delay : Nat
deriving DecidableEq

/-- Modelled from the spec: the delay after failing attempt number
`attempt` is `min(initial_delay * multiplier ^ attempt, max_delay)`. -/
def backoffDelay (p : RetryPolicy) (attempt : Nat) : Nat :=
  min (p.initial_delay * p.backoff_multiplier ^ attempt) p.max_delay

/-- Final result of the retried invocation. -/
inductive RetryResult
  | success (attempt : Nat)
  | permanent (attempt : Nat)
  | exhausted (lastAttempt : Nat)
deriving DecidableEq

/-- Modelled from the spec: run attempts `k, k+1, ...` starting at time
`t` with `fuel` attempts still allowed; returns the trace of
`(attempt, start time)` pairs and the final result. A retryable failure
is retried only when attempts remain and the next start time does not
pass `total_deadline`; on exhaustion the last error is surfaced; a
non-retryable error surfaces immediately. -/
def runRetryAux (p : RetryPolicy) (behavior : Nat → ParseOutcome) :
    Nat → Nat → Nat → List (Nat × Nat) × RetryResult
  | 0, k, _ => ([], RetryResult.exhausted k)
  | fuel + 1, k, t =>
    match behavior k with
    | ParseOutcome.ok => ([(k, t)], RetryResult.success k)
    | ParseOutcome.permanentErr => ([(k, t)], RetryResult.permanent k)
    | ParseOutcome.retryableErr =>
      if fuel = 0 ∨ p.total_deadline < t + backoffDelay p k then
        ([(k, t)], RetryResult.exhausted k)
      else
        let r := runRetryAux p behavior fuel (k + 1) (t + backoffDelay p k)
        ((k, t) :: r.1, r.2)

/-- Modelled from the spec: a full retried invocation under policy `p`,
where `behavior i` is the outcome of attempt `i`. -/
def runRetry (p : RetryPolicy) (behavior : Nat → ParseOutcome) :
    List (Nat × Nat) × RetryResult :=
  runRetryAux p behavior p.max_attempts 0 0

/-! Section: metadata normalizer (`header_path`)

Modelled from the spec: the read-time normalization of the persisted
`header_path` field is not among the sources; the document gives its
rules ("if already an array with `header_path_schema_version == "v1"`,
return as-is"; a legacy scalar is `"/A/B".strip("/").split("/")` with
the version tag then set — the escape scheme for in-text delimiters is
an open question and the given rule is the plain split). -/

/-- A persisted `header_path` value: legacy scalar string, or ordered
array with an optional `header_path_schema_version` tag. -/
inductive HPValue
  | scalar (s : List Char)
  | array (hp : List (List Char)) (version : Option (List Char))
deriving DecidableEq

/-- The `"v1"` schema version tag. -/
def v1Tag : List Char := ("v1").toList

/-- Python `s.strip(c)` for a single character: drop every leading and
trailing occurrence of `c`. -/
def stripChar (c : Char) (l : List Char) : List Char :=
  ((l.dropWhile (· == c)).reverse.dropWhile (· == c)).reverse

/-- Modelled from the spec: read-time normalization of a raw
`header_path` value. A `"v1"`-versioned array is returned as-is; any
other array gets the tag set; a legacy scalar is stripped of leading and
trailing delimiters, split on the delimiter, and tagged. -/
def normalize (x : HPValue) : HPValue :=
  match x with
  | HPValue.array hp v =>
      if v = some v1Tag then HPValue.array hp v else HPValue.array hp (some v1Tag)
  | HPValue.scalar s =>
      HPValue.array (splitSep '/' (stripChar '/' s)) (some v1Tag)

/-- Two scan states that agree on everything except possibly the buffer,
where both buffers are non-blank. Such states emit the same header
paths forever after. -/
def PathEquiv (s1 s2 : ScanState) : Prop :=
  s1.header_stack = s2.header_stack ∧ s1.code_block = s2.code_block ∧
  s1.chunks.map Chunk.header_path = s2.chunks.map Chunk.header_path ∧
  (s1.current_section = s2.current_section ∨
    (blankStr s1.current_section = false ∧ blankStr s2.current_section = false))

/-! Section: helper lemmas about the scan -/

theorem blankStr_append (a b : List Char) :
    blankStr (a ++ b) = (blankStr a && blankStr b) := by
  simp [blankStr, List.all_append]

theorem parseHeader_head (l : List Char) (n : Nat) (t : List Char)
    (h : parseHeader l = some (n, t)) : ∃ rest, l = '#' :: rest := by
  cases l with
  | nil => simp [parseHeader] at h
  | cons c rest =>
    by_cases hc : c = '#'
    · exact ⟨rest, by rw [hc]⟩
    · simp [parseHeader, hc] at h

theorem parseHeader_isFence (l : List Char) (n : Nat) (t : List Char)
    (h : parseHeader l = some (n, t)) : isFence l = false := by
  obtain ⟨rest, hl⟩ := parseHeader_head l n t h
  subst hl
  simp [isFence, lstrip, fenceMark, List.dropWhile, isWs, List.isPrefixOf]

theorem parseHeaderAux_ge (l : List Char) (k n : Nat) (t : List Char)
    (h : parseHeaderAux k l = some (n, t)) : k ≤ n := by
  induction l generalizing k with
  | nil => simp [parseHeaderAux] at h
  | cons c tl ih =>
    by_cases hc : c = '#'
    · simp only [parseHeaderAux, if_pos hc] at h
      exact Nat.le_of_succ_le (ih (k + 1) h)
    · by_cases hw : isWs c
      · simp [parseHeaderAux, hc, hw] at h
        omega
      · simp [parseHeaderAux, hc, hw] at h

theorem parseHeader_pos (l : List Char) (n : Nat) (t : List Char)
    (h : parseHeader l = some (n, t)) : 1 ≤ n := by
  obtain ⟨rest, hl⟩ := parseHeader_head l n t h
  subst hl
  simp only [parseHeader, if_pos rfl] at h
  exact parseHeaderAux_ge rest 1 n t h

theorem headerLine_not_blank (n : Nat) (t : List Char) (hn : 1 ≤ n) (x : List Char) :
    blankStr (headerLine n t ++ x) = false := by
  cases n with
  | zero => omega
  | succ m =>
    simp [headerLine, blankStr, List.replicate, isWs]

theorem isFence_not_blank (l : List Char) (h : isFence l = true) : blankStr l = false := by
  by_contra hb
  have hb' : blankStr l = true := by
    cases hx : blankStr l
    · exact absurd hx hb
    · rfl
  have : lstrip l = [] := by
    simp only [blankStr, List.all_eq_true] at hb'
    simp only [lstrip]
    rw [List.dropWhile_eq_nil_iff]
    intro x hx
    exact hb' x hx
  rw [isFence, this] at h
  simp [fenceMark, List.isPrefixOf] at h

/-- The fence clause of the loop, as an equation. -/
theorem scanStep_fence (s : ScanState) (l : List Char) (hf : isFence l = true) :
    scanStep s l =
      { s with code_block := !s.code_block,
               current_section := s.current_section ++ l ++ ['\n'] } := by
  simp [scanStep, hf]

/-- Inside a code fence, any non-fence line is only appended. -/
theorem scanStep_inFence (s : ScanState) (l : List Char) (hf : isFence l = false)
    (hcb : s.code_block = true) :
    scanStep s l = { s with current_section := s.current_section ++ l ++ ['\n'] } := by
  simp [scanStep, hf, hcb]

/-- The header clause of the loop, as an equation. -/
theorem scanStep_header (s : ScanState) (l : List Char) (n : Nat) (t : List Char)
    (hcb : s.code_block = false) (hp : parseHeader l = some (n, t)) :
    scanStep s l =
      { header_stack := (n, t) :: s.header_stack.dropWhile (fun f => decide (n ≤ f.1)),
        current_section := headerLine n t ++ ['\n'],
        code_block := false,
        chunks := if blankStr s.current_section then s.chunks
                  else s.chunks ++ [{ text := s.current_section,
                                      header_path := pathOf s.header_stack }] } := by
  have hf := parseHeader_isFence l n t hp
  simp [scanStep, hf, hcb, hp]

/-- A plain line in normal mode is only appended. -/
theorem scanStep_other (s : ScanState) (l : List Char) (hf : isFence l = false)
    (hcb : s.code_block = false) (hp : parseHeader l = none) :
    scanStep s l = { s with current_section := s.current_section ++ l ++ ['\n'] } := by
  simp [scanStep, hf, hcb, hp]

/-- Already-emitted chunks survive every later step. -/
theorem scanStep_chunks_mono (s : ScanState) (l : List Char) (c : Chunk)
    (h : c ∈ s.chunks) : c ∈ (scanStep s l).chunks := by
  cases hf : isFence l with
  | true => rw [scanStep_fence s l hf]; exact h
  | false =>
    cases hcb : s.code_block with
    | true => rw [scanStep_inFence s l hf hcb]; exact h
    | false =>
      cases hp : parseHeader l with
      | none => rw [scanStep_other s l hf hcb hp]; exact h
      | some v =>
        obtain ⟨n, t⟩ := v
        rw [scanStep_header s l n t hcb hp]
        by_cases hb : blankStr s.current_section <;> simp [hb, h]

theorem foldl_chunks_mono (ls : List (List Char)) (s : ScanState) (c : Chunk)
    (h : c ∈ s.chunks) : c ∈ (ls.foldl scanStep s).chunks := by
  induction ls generalizing s with
  | nil => exact h
  | cons l rest ih =>
    simpa using ih (scanStep s l) (scanStep_chunks_mono s l c h)

theorem finishScan_chunks_mono (s : ScanState) (c : Chunk) (h : c ∈ s.chunks) :
    c ∈ finishScan s := by
  unfold finishScan
  by_cases hb : blankStr s.current_section <;> simp [hb, h]

/-- Pushing a header after popping every frame of level `≥ n` keeps the
stack levels strictly decreasing top-to-bottom. -/
theorem chain_push (n : Nat) (t : List Char) (stk : List (Nat × List Char))
    (h : List.Chain' (· > ·) (stk.map Prod.fst)) :
    List.Chain' (· > ·)
      (((n, t) :: stk.dropWhile (fun f => decide (n ≤ f.1))).map Prod.fst) := by
  induction stk with
  | nil => simp
  | cons f rest ih =>
    by_cases hn : n ≤ f.1
    · have hd : (f :: rest).dropWhile (fun f => decide (n ≤ f.1)) =
          rest.dropWhile (fun f => decide (n ≤ f.1)) := by
        simp [List.dropWhile, hn]
      rw [hd]
      have h' : List.Chain' (· > ·) (rest.map Prod.fst) := by
        have := h.tail
        simpa using this
      exact ih h'
    · have hd : (f :: rest).dropWhile (fun f => decide (n ≤ f.1)) = f :: rest := by
        simp [List.dropWhile, hn]
      rw [hd, List.map_cons, List.map_cons, List.chain'_cons]
      exact ⟨by omega, by simpa using h⟩

/-- One scan step preserves the strictly-decreasing stack invariant. -/
theorem stack_inv_step (s : ScanState) (l : List Char)
    (h : List.Chain' (· > ·) (s.header_stack.map Prod.fst)) :
    List.Chain' (· > ·) ((scanStep s l).header_stack.map Prod.fst) := by
  cases hf : isFence l with
  | true => rw [scanStep_fence s l hf]; exact h
  | false =>
    cases hcb : s.code_block with
    | true => rw [scanStep_inFence s l hf hcb]; exact h
    | false =>
      cases hp : parseHeader l with
      | none => rw [scanStep_other s l hf hcb hp]; exact h
      | some v =>
        obtain ⟨n, t⟩ := v
        rw [scanStep_header s l n t hcb hp]
        exact chain_push n t s.header_stack h

theorem stack_inv_foldl (ls : List (List Char)) (s : ScanState)
    (h : List.Chain' (· > ·) (s.header_stack.map Prod.fst)) :
    List.Chain' (· > ·) (((ls.foldl scanStep s).header_stack).map Prod.fst) := by
  induction ls generalizing s with
  | nil => exact h
  | cons l rest ih => simpa using ih (scanStep s l) (stack_inv_step s l h)

/-- Inside an open code fence, a run of non-fence lines is appended to
the buffer verbatim and changes nothing else. -/
theorem foldl_inFence (ls : List (List Char)) (s : ScanState)
    (hcb : s.code_block = true) (hnf : ∀ l ∈ ls, isFence l = false) :
    ls.foldl scanStep s = { s with current_section := s.current_section ++ joinNl ls } := by
  induction ls generalizing s with
  | nil => simp [joinNl]
  | cons l rest ih =>
    have h1 : scanStep s l = { s with current_section := s.current_section ++ l ++ ['\n'] } :=
      scanStep_inFence s l (hnf l (by simp)) hcb
    rw [List.foldl_cons, h1,
      ih { s with current_section := s.current_section ++ l ++ ['\n'] } hcb
        (fun l hl => hnf l (List.mem_cons_of_mem _ hl))]
    simp [joinNl]

theorem chunkTextCat_append (a b : List Chunk) :
    chunkTextCat (a ++ b) = chunkTextCat a ++ chunkTextCat b := by
  induction a with
  | nil => simp [chunkTextCat]
  | cons c cs ih => simp [chunkTextCat, ih]

theorem joinNl_append (a b : List (List Char)) :
    joinNl (a ++ b) = joinNl a ++ joinNl b := by
  induction a with
  | nil => simp [joinNl]
  | cons l rest ih => simp [joinNl, ih]

theorem blank_append_line (b l : List Char) (hb : blankStr b = false) :
    blankStr (b ++ l ++ ['\n']) = false := by
  rw [blankStr_append, blankStr_append, hb]
  rfl

theorem pathEquiv_step (s1 s2 : ScanState) (l : List Char) (h : PathEquiv s1 s2) :
    PathEquiv (scanStep s1 l) (scanStep s2 l) := by
  obtain ⟨hstk, hcb, hck, hcs⟩ := h
  cases hf : isFence l with
  | true =>
    rw [scanStep_fence s1 l hf, scanStep_fence s2 l hf]
    refine ⟨hstk, by rw [hcb], hck, ?_⟩
    rcases hcs with he | ⟨h1, h2⟩
    · exact Or.inl (by rw [he])
    · exact Or.inr ⟨blank_append_line _ l h1, blank_append_line _ l h2⟩
  | false =>
    cases hcb1 : s1.code_block with
    | true =>
      have hcb2 : s2.code_block = true := by rw [← hcb, hcb1]
      rw [scanStep_inFence s1 l hf hcb1, scanStep_inFence s2 l hf hcb2]
      refine ⟨hstk, hcb, hck, ?_⟩
      rcases hcs with he | ⟨h1, h2⟩
      · exact Or.inl (by rw [he])
      · exact Or.inr ⟨blank_append_line _ l h1, blank_append_line _ l h2⟩
    | false =>
      have hcb2 : s2.code_block = false := by rw [← hcb, hcb1]
      cases hp : parseHeader l with
      | none =>
        rw [scanStep_other s1 l hf hcb1 hp, scanStep_other s2 l hf hcb2 hp]
        refine ⟨hstk, hcb, hck, ?_⟩
        rcases hcs with he | ⟨h1, h2⟩
        · exact Or.inl (by rw [he])
        · exact Or.inr ⟨blank_append_line _ l h1, blank_append_line _ l h2⟩
      | some v =>
        obtain ⟨n, t⟩ := v
        rw [scanStep_header s1 l n t hcb1 hp, scanStep_header s2 l n t hcb2 hp]
        refine ⟨by rw [hstk], rfl, ?_, Or.inl rfl⟩
        rcases hcs with he | ⟨h1, h2⟩
        · rw [he, hstk]
          by_cases hb : blankStr s2.current_section <;> simp [hb, hck]
        · rw [h1, h2]
          simp [hck, hstk]

theorem pathEquiv_foldl (ls : List (List Char)) (s1 s2 : ScanState) (h : PathEquiv s1 s2) :
    PathEquiv (ls.foldl scanStep s1) (ls.foldl scanStep s2) := by
  induction ls generalizing s1 s2 with
  | nil => exact h
  | cons l rest ih => simpa using ih (scanStep s1 l) (scanStep s2 l) (pathEquiv_step s1 s2 l h)

theorem pathEquiv_finish (s1 s2 : ScanState) (h : PathEquiv s1 s2) :
    (finishScan s1).map Chunk.header_path = (finishScan s2).map Chunk.header_path := by
  obtain ⟨hstk, hcb, hck, hcs⟩ := h
  unfold finishScan
  rcases hcs with he | ⟨h1, h2⟩
  · rw [he]
    by_cases hb : blankStr s2.current_section <;> simp [hb, hck, hstk]
  · rw [h1, h2]
    simp [hck, hstk]

/-- With a non-blank buffer, in normal mode and over fence-free
canonical-header lines, the emitted chunk texts concatenate to all the
input consumed (each line with its newline) and the emitted paths are
the spec's root-to-current stack at each transition. -/
theorem scan_run_aux (ls : List (List Char)) (s : ScanState)
    (hnf : ∀ l ∈ ls, isFence l = false)
    (hcanon : ∀ l ∈ ls, ∀ n t, parseHeader l = some (n, t) → l = headerLine n t)
    (hnb : blankStr s.current_section = false)
    (hcb : s.code_block = false) :
    chunkTextCat (finishScan (ls.foldl scanStep s)) =
      chunkTextCat s.chunks ++ s.current_section ++ joinNl ls ∧
    (finishScan (ls.foldl scanStep s)).map Chunk.header_path =
      s.chunks.map Chunk.header_path ++ specPathsFrom s.header_stack ls := by
  induction ls generalizing s with
  | nil =>
    rw [List.foldl_nil]
    unfold finishScan
    rw [hnb]
    simp [chunkTextCat_append, chunkTextCat, joinNl, specPathsFrom]
  | cons l rest ih =>
    have hnf' : ∀ x ∈ rest, isFence x = false := fun x hx => hnf x (List.mem_cons_of_mem _ hx)
    have hcanon' : ∀ x ∈ rest, ∀ n t, parseHeader x = some (n, t) → x = headerLine n t :=
      fun x hx => hcanon x (List.mem_cons_of_mem _ hx)
    cases hp : parseHeader l with
    | none =>
      rw [List.foldl_cons, scanStep_other s l (hnf l (by simp)) hcb hp]
      have := ih { s with current_section := s.current_section ++ l ++ ['\n'] }
        hnf' hcanon' (blank_append_line _ l hnb) hcb
      simp only at this
      obtain ⟨h1, h2⟩ := this
      refine ⟨?_, ?_⟩
      · rw [h1]
        simp [joinNl, List.append_assoc]
      · rw [h2]
        simp [specPathsFrom, hp]
    | some v =>
      obtain ⟨n, t⟩ := v
      rw [List.foldl_cons, scanStep_header s l n t hcb hp, hnb]
      simp only [Bool.false_eq_true, if_false]
      have hline : l = headerLine n t := hcanon l (by simp) n t hp
      have hpos : 1 ≤ n := parseHeader_pos l n t hp
      have hnb' : blankStr (headerLine n t ++ ['\n']) = false :=
        headerLine_not_blank n t hpos ['\n']
      have hih := ih { header_stack := (n, t) :: s.header_stack.dropWhile (fun f => decide (n ≤ f.1)),
                       current_section := headerLine n t ++ ['\n'],
                       code_block := false,
                       chunks := s.chunks ++ [{ text := s.current_section,
                                                header_path := pathOf s.header_stack }] }
        hnf' hcanon' hnb' rfl
      simp only at hih
      obtain ⟨h1, h2⟩ := hih
      refine ⟨?_, ?_⟩
      · rw [h1]
        simp only [chunkTextCat_append, chunkTextCat, List.append_nil]
        rw [← hline]
        simp [joinNl, List.append_assoc]
      · rw [h2]
        simp [specPathsFrom, hp]

theorem splitSep_ne_nil (sep : Char) (l : List Char) : splitSep sep l ≠ [] := by
  cases l with
  | nil => simp [splitSep]
  | cons c rest =>
    unfold splitSep
    by_cases hc : c == sep
    · simp [hc]
    · simp only [hc, if_false, Bool.false_eq_true]
      cases splitSep sep rest <;> simp

theorem interSep_splitSep (sep : Char) (l : List Char) :
    interSep sep (splitSep sep l) = l := by
  induction l with
  | nil => simp [splitSep, interSep]
  | cons c rest ih =>
    unfold splitSep
    by_cases hc : c = sep
    · simp only [hc, beq_self_eq_true, if_true]
      cases hs : splitSep sep rest with
      | nil => exact absurd hs (splitSep_ne_nil sep rest)
      | cons y t =>
        rw [hs] at ih
        simp [interSep, ih]
    · have hc' : (c == sep) = false := by simp [hc]
      simp only [hc', Bool.false_eq_true, if_false]
      cases hs : splitSep sep rest with
      | nil => exact absurd hs (splitSep_ne_nil sep rest)
      | cons y t =>
        rw [hs] at ih
        cases t with
        | nil => simp only [interSep] at ih ⊢; rw [ih]
        | cons z t' => simp only [interSep] at ih ⊢; rw [List.cons_append, ih]

theorem joinNl_eq_interSep (ls : List (List Char)) (h : ls ≠ []) :
    joinNl ls = interSep '\n' ls ++ ['\n'] := by
  induction ls with
  | nil => exact absurd rfl h
  | cons l rest ih =>
    cases rest with
    | nil => simp [joinNl, interSep]
    | cons y t =>
      have := ih (by simp)
      simp only [joinNl] at this ⊢
      rw [this, interSep]
      simp

/-- Every character of a piece of `splitSep` comes from the input. -/
theorem splitSep_chars (sep : Char) (s : List Char) (l : List Char) (ch : Char)
    (hl : l ∈ splitSep sep s) (hc : ch ∈ l) : ch ∈ s := by
  induction s generalizing l with
  | nil =>
    simp [splitSep] at hl
    subst hl
    simp at hc
  | cons c rest ih =>
    unfold splitSep at hl
    by_cases hcs : c == sep
    · simp only [hcs, if_true] at hl
      rcases List.mem_cons.mp hl with he | hm
      · subst he; simp at hc
      · exact List.mem_cons_of_mem _ (ih l hm hc)
    · simp only [hcs, Bool.false_eq_true, if_false] at hl
      cases hs : splitSep sep rest with
      | nil => exact absurd hs (splitSep_ne_nil sep rest)
      | cons y t =>
        rw [hs] at hl
        rcases List.mem_cons.mp hl with he | hm
        · subst he
          rcases List.mem_cons.mp hc with he' | hm'
          · simp [he']
          · exact List.mem_cons_of_mem _ (ih y (by rw [hs]; simp) hm')
        · exact List.mem_cons_of_mem _ (ih l (by rw [hs]; exact List.mem_cons_of_mem _ hm) hc)

theorem blank_isFence (l : List Char) (h : blankStr l = true) : isFence l = false := by
  have : lstrip l = [] := by
    simp only [blankStr, List.all_eq_true] at h
    simp only [lstrip]
    rw [List.dropWhile_eq_nil_iff]
    intro x hx
    exact h x hx
  rw [isFence, this]
  simp [fenceMark, List.isPrefixOf]

theorem blank_parseHeader (l : List Char) (h : blankStr l = true) : parseHeader l = none := by
  cases l with
  | nil => simp [parseHeader]
  | cons c rest =>
    have hw : isWs c = true := by
      simp only [blankStr, List.all_eq_true] at h
      exact h c (by simp)
    have hc : ¬c = '#' := by
      intro he
      rw [he] at hw
      simp [isWs] at hw
    simp [parseHeader, hc]

/-- Scanning only blank lines from the pristine state emits nothing. -/
theorem blank_scan (ls : List (List Char)) (s : ScanState)
    (hb : ∀ l ∈ ls, blankStr l = true)
    (hcs : blankStr s.current_section = true) (hcb : s.code_block = false)
    (hck : s.chunks = []) :
    finishScan (ls.foldl scanStep s) = [] := by
  induction ls generalizing s with
  | nil =>
    rw [List.foldl_nil]
    unfold finishScan
    rw [hcs]
    simp [hck]
  | cons l rest ih =>
    have hbl : blankStr l = true := hb l (by simp)
    rw [List.foldl_cons,
      scanStep_other s l (blank_isFence l hbl) hcb (blank_parseHeader l hbl)]
    refine ih { s with current_section := s.current_section ++ l ++ ['\n'] }
      (fun x hx => hb x (List.mem_cons_of_mem _ hx)) ?_ hcb hck
    simp only [blankStr_append, hcs, hbl]
    rfl

/-- Every chunk the scan ever emits has a non-blank text. -/
theorem scanStep_chunks_nonblank (s : ScanState) (l : List Char)
    (h : ∀ c ∈ s.chunks, blankStr c.text = false) :
    ∀ c ∈ (scanStep s l).chunks, blankStr c.text = false := by
  cases hf : isFence l with
  | true => rw [scanStep_fence s l hf]; exact h
  | false =>
    cases hcb : s.code_block with
    | true => rw [scanStep_inFence s l hf hcb]; exact h
    | false =>
      cases hp : parseHeader l with
      | none => rw [scanStep_other s l hf hcb hp]; exact h
      | some v =>
        obtain ⟨n, t⟩ := v
        rw [scanStep_header s l n t hcb hp]
        by_cases hbl : blankStr s.current_section = true
        · simpa [hbl] using h
        · intro c hc
          simp only [hbl, if_false] at hc
          rcases List.mem_append.mp hc with hm | hm
          · exact h c hm
          · simp only [List.mem_singleton] at hm
            subst hm
            simp only [Bool.not_eq_true] at hbl
            exact hbl

theorem foldl_chunks_nonblank (ls : List (List Char)) (s : ScanState)
    (h : ∀ c ∈ s.chunks, blankStr c.text = false) :
    ∀ c ∈ (ls.foldl scanStep s).chunks, blankStr c.text = false := by
  induction ls generalizing s with
  | nil => exact h
  | cons l rest ih => simpa using ih (scanStep s l) (scanStep_chunks_nonblank s l h)

theorem finishScan_chunks_nonblank (s : ScanState)
    (h : ∀ c ∈ s.chunks, blankStr c.text = false) :
    ∀ c ∈ finishScan s, blankStr c.text = false := by
  unfold finishScan
  by_cases hbl : blankStr s.current_section = true
  · simpa [hbl] using h
  · intro c hc
    simp only [hbl, if_false] at hc
    rcases List.mem_append.mp hc with hm | hm
    · exact h c hm
    · simp only [List.mem_singleton] at hm
      subst hm
      simp only [Bool.not_eq_true] at hbl
      exact hbl

/-- A line starting with `#` is never a fence line. -/
theorem hash_not_fence (l : List Char) (h : l.head? = some '#') : isFence l = false := by
  cases l with
  | nil => simp at h
  | cons c rest =>
    simp only [List.head?_cons, Option.some_inj] at h
    subst h
    have hls : lstrip ('#' :: rest) = '#' :: rest := by
      simp [lstrip, List.dropWhile, isWs]
    rw [isFence, hls]
    rfl

theorem runRetryAux_len (p : RetryPolicy) (behavior : Nat → ParseOutcome) :
    ∀ fuel k t, (runRetryAux p behavior fuel k t).1.length ≤ fuel := by
  intro fuel
  induction fuel with
  | zero => intro k t; simp [runRetryAux]
  | succ fuel ih =>
    intro k t
    unfold runRetryAux
    cases hbk : behavior k with
    | ok => simp [hbk]
    | permanentErr => simp [hbk]
    | retryableErr =>
      simp only [hbk]
      by_cases hc : fuel = 0 ∨ p.total_deadline < t + backoffDelay p k
      · simp [hc]
      · simp only [hc, if_false]
        simpa using Nat.succ_le_succ (ih (k + 1) (t + backoffDelay p k))

theorem runRetryAux_head (p : RetryPolicy) (behavior : Nat → ParseOutcome)
    (fuel k t : Nat) (h : 1 ≤ fuel) :
    (runRetryAux p behavior fuel k t).1.head? = some (k, t) := by
  cases fuel with
  | zero => omega
  | succ fuel =>
    unfold runRetryAux
    cases hbk : behavior k with
    | ok => simp [hbk]
    | permanentErr => simp [hbk]
    | retryableErr =>
      simp only [hbk]
      by_cases hc : fuel = 0 ∨ p.total_deadline < t + backoffDelay p k
      · simp [hc]
      · simp [hc]

theorem runRetryAux_chain (p : RetryPolicy) (behavior : Nat → ParseOutcome) :
    ∀ fuel k t, List.Chain'
      (fun a b => b.1 = a.1 + 1 ∧ b.2 = a.2 + backoffDelay p a.1)
      (runRetryAux p behavior fuel k t).1 := by
  intro fuel
  induction fuel with
  | zero => intro k t; simp [runRetryAux]
  | succ fuel ih =>
    intro k t
    unfold runRetryAux
    cases hbk : behavior k with
    | ok => simp [hbk]
    | permanentErr => simp [hbk]
    | retryableErr =>
      simp only [hbk]
      by_cases hc : fuel = 0 ∨ p.total_deadline < t + backoffDelay p k
      · simp [hc]
      · simp only [hc, if_false]
        have hfuel : 1 ≤ fuel := by
          rcases Nat.eq_zero_or_pos fuel with h0 | h0
          · exact absurd (Or.inl h0) hc
          · exact h0
        rw [List.chain'_cons']
        refine ⟨?_, ih (k + 1) (t + backoffDelay p k)⟩
        intro b hb
        rw [runRetryAux_head p behavior fuel (k + 1) (t + backoffDelay p k) hfuel] at hb
        rw [Option.mem_def, Option.some_inj] at hb
        subst hb
        exact ⟨rfl, rfl⟩

/-! Section: claim theorems -/

/-- Claim C1: in normal mode, a header line of level `n` and text `t`
(i) emits the buffer as a chunk tagged with the pre-transition stack
when the buffer is non-blank, (ii) pops every frame of level `≥ n`,
(iii) pushes `(n, t)` and (iv) resets the buffer to the header line;
and on `"# A\ntext1\n## B\ntext2\n# C\ntext3"` the engine emits exactly
three chunks with header paths `["A"]`, `["A","B"]`, `["C"]`, each chunk
text including its own header line. -/
theorem claim1_header_transition :
    (∀ (s : ScanState) (l : List Char) (n : Nat) (t : List Char),
        s.code_block = false → parseHeader l = some (n, t) →
        scanStep s l =
          { header_stack := (n, t) :: s.header_stack.dropWhile (fun f => decide (n ≤ f.1)),
            current_section := headerLine n t ++ ['\n'],
            code_block := false,
            chunks := if blankStr s.current_section then s.chunks
                      else s.chunks ++ [{ text := s.current_section,
                                          header_path := pathOf s.header_stack }] }) ∧
    chunkContent (("# A\ntext1\n## B\ntext2\n# C\ntext3").toList) =
      [{ text := ("# A\ntext1\n").toList, header_path := [("A").toList] },
       { text := ("## B\ntext2\n").toList, header_path := [("A").toList, ("B").toList] },
       { text := ("# C\ntext3\n").toList, header_path := [("C").toList] }] :=
  ⟨fun s l n t hcb hp => scanStep_header s l n t hcb hp, by decide⟩

/-- Witness for C1: the header transition applied at the initial state
and the concrete line `"# T"`. -/
theorem claim1_header_transition_witness :
    scanStep initState (("# T").toList) =
      { header_stack := [(1, ("T").toList)],
        current_section := headerLine 1 (("T").toList) ++ ['\n'],
        code_block := false,
        chunks := [] } := by
  have h := claim1_header_transition.1 initState (("# T").toList) 1 (("T").toList) rfl (by decide)
  rw [h]
  decide

/-- Claim C2: the header stack is strictly increasing in level from root
to top: this holds initially, is preserved by every line transition, and
therefore holds after scanning any input. -/
theorem claim2_stack_strictly_increasing :
    List.Chain' (· < ·) ((initState.header_stack.map Prod.fst).reverse) ∧
    (∀ (s : ScanState) (l : List Char),
        List.Chain' (· < ·) ((s.header_stack.map Prod.fst).reverse) →
        List.Chain' (· < ·) (((scanStep s l).header_stack.map Prod.fst).reverse)) ∧
    (∀ ls : List (List Char),
        List.Chain' (· < ·) ((((ls.foldl scanStep initState).header_stack).map Prod.fst).reverse)) := by
  have conv : ∀ xs : List Nat,
      List.Chain' (· < ·) xs.reverse ↔ List.Chain' (· > ·) xs := by
    intro xs
    rw [List.chain'_reverse]
    exact Iff.rfl
  refine ⟨by simp [initState], fun s l h => ?_, fun ls => ?_⟩
  · exact (conv _).mpr (stack_inv_step s l ((conv _).mp h))
  · exact (conv _).mpr (stack_inv_foldl ls initState (by simp [initState]))

/-- Witness for C2: preservation applied at a concrete two-frame stack
and the concrete header line `"# C"`. -/
theorem claim2_stack_strictly_increasing_witness :
    List.Chain' (· < ·)
      (((scanStep { header_stack := [(2, ("B").toList), (1, ("A").toList)],
                    current_section := ("x").toList,
                    code_block := false,
                    chunks := [] }
          (("# C").toList)).header_stack.map Prod.fst).reverse) := by
  exact claim2_stack_strictly_increasing.2.1
    { header_stack := [(2, ("B").toList), (1, ("A").toList)],
      current_section := ("x").toList, code_block := false, chunks := [] }
    (("# C").toList) (by simp)

/-- Claim C4: a header line immediately followed by another header line
(in normal mode) yields a chunk consisting of only the first header
line; empty sections are never dropped. -/
theorem claim4_empty_section_emitted :
    ∀ (pre post : List (List Char)) (h1 h2 : List Char) (n1 n2 : Nat) (t1 t2 : List Char),
      parseHeader h1 = some (n1, t1) → parseHeader h2 = some (n2, t2) →
      (pre.foldl scanStep initState).code_block = false →
      ∃ c ∈ chunkLines (pre ++ h1 :: h2 :: post), c.text = headerLine n1 t1 ++ ['\n'] := by
  intro pre post h1 h2 n1 n2 t1 t2 hp1 hp2 hcb
  have hstep1 := scanStep_header (pre.foldl scanStep initState) h1 n1 t1 hcb hp1
  have hcb1 : (scanStep (pre.foldl scanStep initState) h1).code_block = false := by
    rw [hstep1]
  have hstep2 := scanStep_header (scanStep (pre.foldl scanStep initState) h1) h2 n2 t2 hcb1 hp2
  have hpos1 : 1 ≤ n1 := parseHeader_pos h1 n1 t1 hp1
  have hmem : ({ text := headerLine n1 t1 ++ ['\n'],
                 header_path := pathOf (scanStep (pre.foldl scanStep initState) h1).header_stack } : Chunk) ∈
      (scanStep (scanStep (pre.foldl scanStep initState) h1) h2).chunks := by
    rw [hstep2]
    have hcs1 : (scanStep (pre.foldl scanStep initState) h1).current_section =
        headerLine n1 t1 ++ ['\n'] := by rw [hstep1]
    rw [hcs1, headerLine_not_blank n1 t1 hpos1 ['\n']]
    simp [hcs1]
  refine ⟨{ text := headerLine n1 t1 ++ ['\n'],
            header_path := pathOf (scanStep (pre.foldl scanStep initState) h1).header_stack }, ?_, rfl⟩
  have hfold : chunkLines (pre ++ h1 :: h2 :: post) =
      finishScan (post.foldl scanStep
        (scanStep (scanStep (pre.foldl scanStep initState) h1) h2)) := by
    simp [chunkLines, List.foldl_append]
  rw [hfold]
  exact finishScan_chunks_mono _ _ (foldl_chunks_mono post _ _ hmem)

/-- Witness for C4: the content `"# P"` followed by `"## Q"` emits a
chunk that is exactly the line `"# P"`. -/
theorem claim4_empty_section_emitted_witness :
    ∃ c ∈ chunkLines ([] ++ ("# P").toList :: ("## Q").toList :: []),
      c.text = headerLine 1 (("P").toList) ++ ['\n'] := by
  exact claim4_empty_section_emitted [] [] (("# P").toList) (("## Q").toList)
    1 2 (("P").toList) (("Q").toList) (by decide) (by decide) rfl

/-- Claim C3: a fence line toggles the scan mode and is appended to the
buffer; while inside a code fence no line is parsed as a header (it is
only appended); and inserting `#`-prefixed lines between a code-fence
open and its matching close leaves the header paths of the emitted
chunks unchanged. -/
theorem claim3_code_fence_protection :
    (∀ (s : ScanState) (l : List Char), isFence l = true →
        scanStep s l = { s with code_block := !s.code_block,
                                current_section := s.current_section ++ l ++ ['\n'] }) ∧
    (∀ (s : ScanState) (l : List Char), isFence l = false → s.code_block = true →
        scanStep s l = { s with current_section := s.current_section ++ l ++ ['\n'] }) ∧
    (∀ (pre mid1 ins mid2 post : List (List Char)) (f g : List Char),
        isFence f = true → isFence g = true →
        (∀ l ∈ mid1, isFence l = false) → (∀ l ∈ mid2, isFence l = false) →
        (∀ l ∈ ins, l.head? = some '#') →
        (pre.foldl scanStep initState).code_block = false →
        (chunkLines (pre ++ [f] ++ mid1 ++ ins ++ mid2 ++ [g] ++ post)).map Chunk.header_path =
          (chunkLines (pre ++ [f] ++ mid1 ++ mid2 ++ [g] ++ post)).map Chunk.header_path) := by
  refine ⟨fun s l hf => scanStep_fence s l hf, fun s l hf hcb => scanStep_inFence s l hf hcb, ?_⟩
  intro pre mid1 ins mid2 post f g hf hg hm1 hm2 hins hpre
  have hinsF : ∀ l ∈ ins, isFence l = false := fun l hl => hash_not_fence l (hins l hl)
  have hstep_f := scanStep_fence (pre.foldl scanStep initState) f hf
  have hcb1 : (scanStep (pre.foldl scanStep initState) f).code_block = true := by
    rw [hstep_f]
    simp [hpre]
  have hnb1 : blankStr (scanStep (pre.foldl scanStep initState) f).current_section = false := by
    rw [hstep_f]
    dsimp only
    rw [blankStr_append, blankStr_append, isFence_not_blank f hf]
    simp
  have hmid1 := foldl_inFence mid1 (scanStep (pre.foldl scanStep initState) f) hcb1 hm1
  have hcb2 : (mid1.foldl scanStep (scanStep (pre.foldl scanStep initState) f)).code_block = true := by
    rw [hmid1]
    exact hcb1
  have hnb2 : blankStr
      (mid1.foldl scanStep (scanStep (pre.foldl scanStep initState) f)).current_section = false := by
    rw [hmid1]
    dsimp only
    rw [blankStr_append, hnb1]
    rfl
  have hins_run := foldl_inFence ins
    (mid1.foldl scanStep (scanStep (pre.foldl scanStep initState) f)) hcb2 hinsF
  have hequiv : PathEquiv
      (ins.foldl scanStep (mid1.foldl scanStep (scanStep (pre.foldl scanStep initState) f)))
      (mid1.foldl scanStep (scanStep (pre.foldl scanStep initState) f)) := by
    rw [hins_run]
    refine ⟨rfl, rfl, rfl, Or.inr ⟨?_, hnb2⟩⟩
    dsimp only
    rw [blankStr_append, hnb2]
    rfl
  simp only [chunkLines, List.foldl_append, List.foldl_cons, List.foldl_nil]
  exact pathEquiv_finish _ _
    (pathEquiv_foldl post _ _
      (pathEquiv_step _ _ g (pathEquiv_foldl mid2 _ _ hequiv)))

/-- Witness for C3: inserting the line `"# H"` inside a fenced block
does not change the emitted header paths. -/
theorem claim3_code_fence_protection_witness :
    (chunkLines ([] ++ [("```").toList] ++ [] ++ [("# H").toList] ++ [("x").toList] ++
        [("```").toList] ++ [("# Z").toList])).map Chunk.header_path =
      (chunkLines ([] ++ [("```").toList] ++ [] ++ [("x").toList] ++
        [("```").toList] ++ [("# Z").toList])).map Chunk.header_path := by
  exact claim3_code_fence_protection.2.2 [] [] [("# H").toList] [("x").toList]
    [("# Z").toList] (("```").toList) (("```").toList)
    (by decide) (by decide) (by decide) (by decide) (by decide) rfl

/-- Counterexample to C5 as stated: for the well-formed content `"# A"`
(one level-1 header, no code fences) the concatenation of the emitted
chunk texts is `"# A\n"`, not the original content — every line is
re-emitted with a trailing newline. -/
theorem claim5_counterexample :
    chunkTextCat (chunkContent (("# A").toList)) ≠ ("# A").toList := by
  decide

/-- Claim C5 (amended): for content whose first line is a header, whose
header lines are canonical (a single space after the hashes) with levels
at most 6, and which contains no code fences, concatenating the chunk
texts in emission order yields the original content followed by one
trailing newline, and the emitted `header_path` sequence is exactly the
root-to-current stack at each header transition. -/
theorem claim5_reconstruction :
    ∀ (c l0 : List Char) (rest : List (List Char)) (n0 : Nat) (t0 : List Char),
      splitSep '\n' c = l0 :: rest →
      parseHeader l0 = some (n0, t0) →
      (∀ l ∈ splitSep '\n' c, canonicalHeaderLine l = true) →
      (∀ l ∈ splitSep '\n' c, isFence l = false) →
      chunkTextCat (chunkContent c) = c ++ ['\n'] ∧
      (chunkContent c).map Chunk.header_path = specPathsFrom [(n0, t0)] rest := by
  intro c l0 rest n0 t0 hsplit hph hcanonB hnf
  have hcanon : ∀ l ∈ splitSep '\n' c, ∀ n t, parseHeader l = some (n, t) →
      l = headerLine n t := by
    intro l hl n t hp
    have h := hcanonB l hl
    unfold canonicalHeaderLine at h
    rw [hp] at h
    simp only [Bool.and_eq_true, beq_iff_eq, decide_eq_true_eq] at h
    exact h.1
  have hcanon0 : l0 = headerLine n0 t0 :=
    hcanon l0 (by rw [hsplit]; simp) n0 t0 hph
  have hpos : 1 ≤ n0 := parseHeader_pos l0 n0 t0 hph
  have hstep := scanStep_header initState l0 n0 t0 rfl hph
  have hstep' : scanStep initState l0 =
      { header_stack := [(n0, t0)],
        current_section := headerLine n0 t0 ++ ['\n'],
        code_block := false, chunks := [] } := by
    rw [hstep]
    simp [initState, blankStr]
  have haux := scan_run_aux rest
    { header_stack := [(n0, t0)],
      current_section := headerLine n0 t0 ++ ['\n'],
      code_block := false, chunks := [] }
    (fun l hl => hnf l (by rw [hsplit]; exact List.mem_cons_of_mem _ hl))
    (fun l hl n t hp =>
      hcanon l (by rw [hsplit]; exact List.mem_cons_of_mem _ hl) n t hp)
    (headerLine_not_blank n0 t0 hpos ['\n']) rfl
  obtain ⟨h1, h2⟩ := haux
  have hchunk : chunkContent c =
      finishScan (rest.foldl scanStep
        { header_stack := [(n0, t0)],
          current_section := headerLine n0 t0 ++ ['\n'],
          code_block := false, chunks := [] }) := by
    rw [chunkContent, hsplit, chunkLines, List.foldl_cons, hstep']
  constructor
  · rw [hchunk, h1]
    dsimp only
    rw [← hcanon0]
    have hc : c = interSep '\n' (l0 :: rest) := by
      rw [← hsplit, interSep_splitSep]
    rw [hc, ← joinNl_eq_interSep (l0 :: rest) (by simp)]
    simp [chunkTextCat, joinNl]
  · rw [hchunk, h2]
    simp

/-- Witness for C5 (amended): the content `"# X\nbody\n## Y"`. -/
theorem claim5_reconstruction_witness :
    chunkTextCat (chunkContent (("# X\nbody\n## Y").toList)) =
      ("# X\nbody\n## Y").toList ++ ['\n'] ∧
    (chunkContent (("# X\nbody\n## Y").toList)).map Chunk.header_path =
      specPathsFrom [(1, ("X").toList)] [("body").toList, ("## Y").toList] := by
  exact claim5_reconstruction (("# X\nbody\n## Y").toList) (("# X").toList)
    [("body").toList, ("## Y").toList] 1 (("X").toList)
    (by decide) (by decide) (by decide) (by decide)

/-- Claim C6: reassigning `content` invalidates the cached elements, so
a subsequent read of `elements` always derives from the new content —
never from elements derived from, or supplied for, the previous content
— unless the cache is explicitly re-populated afterwards. -/
theorem claim6_cache_invalidation :
    ∀ (parseEls : List Char → List DocumentElement) (d : StandardizedDocument)
      (v : List Char) (es : List DocumentElement),
      (contentSet d v).elementsCache = none ∧
      (elementsGet parseEls (contentSet d v)).1 = parseEls v ∧
      (elementsGet parseEls (populate_elements (contentSet d v) es)).1 = es := by
  intro parseEls d v es
  exact ⟨rfl, rfl, rfl⟩

/-- Counterexample to C7 as stated: `populate_elements` accepts an
element list containing a shape-invalid element (unrecognized `type`
`"bogus"`) and seeds the cache with it instead of failing with
`ElementValidationError`. -/
theorem claim7_counterexample :
    validElement { type := ("bogus").toList, content := ("x").toList, level := none } = false ∧
    (populate_elements { contentVal := [], metadata := [], elementsCache := none }
        [{ type := ("bogus").toList, content := ("x").toList, level := none }]).elementsCache =
      some [{ type := ("bogus").toList, content := ("x").toList, level := none }] := by
  exact ⟨by decide, rfl⟩

/-- Claim C7 (amended): `populate_elements` seeds the cache with exactly
the given list for every element list; no shape validation is performed
(it is only an optional comment in the code), so it never fails and a
subsequent read returns exactly the seeded list. -/
theorem claim7_populate_no_validation :
    ∀ (parseEls : List Char → List DocumentElement) (d : StandardizedDocument)
      (es : List DocumentElement),
      (populate_elements d es).elementsCache = some es ∧
      (elementsGet parseEls (populate_elements d es)).1 = es ∧
      (populate_elements d es).contentVal = d.contentVal := by
  intro _ d es
  exact ⟨rfl, rfl, rfl⟩

/-- Claim C8 (modelled from the spec): a retried invocation never makes
more than `max_attempts` attempts; consecutive attempts are numbered
`k, k+1` and separated by exactly
`min(initial_delay * multiplier ^ k, max_delay)`; a non-retryable error
surfaces immediately with a single attempt and no retry; and with
`max_attempts = 3`, `initial_delay = 1`, `multiplier = 2`,
`max_delay = 5`, `total_deadline = 30`, three always-failing retryable
attempts start at `t = 0, 1, 3`, the last error is surfaced, and a
fourth attempt never occurs. -/
theorem claim8_retry_policy :
    (∀ (p : RetryPolicy) (behavior : Nat → ParseOutcome),
        (runRetry p behavior).1.length ≤ p.max_attempts) ∧
    (∀ (p : RetryPolicy) (behavior : Nat → ParseOutcome),
        List.Chain' (fun a b => b.1 = a.1 + 1 ∧ b.2 = a.2 + backoffDelay p a.1)
          (runRetry p behavior).1) ∧
    (∀ (p : RetryPolicy) (behavior : Nat → ParseOutcome),
        1 ≤ p.max_attempts → behavior 0 = ParseOutcome.permanentErr →
        runRetry p behavior = ([(0, 0)], RetryResult.permanent 0)) ∧
    runRetry ⟨3, 30, 1, 2, 5⟩ (fun _ => ParseOutcome.retryableErr) =
      ([(0, 0), (1, 1), (2, 3)], RetryResult.exhausted 2) := by
  refine ⟨fun p b => runRetryAux_len p b p.max_attempts 0 0,
    fun p b => runRetryAux_chain p b p.max_attempts 0 0, ?_, by decide⟩
  intro p b hmax hbp
  rw [runRetry]
  cases hm : p.max_attempts with
  | zero => omega
  | succ m =>
    unfold runRetryAux
    simp [hbp]

/-- Witness for C8: a non-retryable failure on the first attempt
surfaces immediately under a two-attempt policy. -/
theorem claim8_retry_policy_witness :
    runRetry ⟨2, 10, 1, 2, 5⟩ (fun _ => ParseOutcome.permanentErr) =
      ([(0, 0)], RetryResult.permanent 0) := by
  exact claim8_retry_policy.2.2.1 ⟨2, 10, 1, 2, 5⟩
    (fun _ => ParseOutcome.permanentErr) (by decide) rfl

/-- Claim C9 (modelled from the spec): `normalize` is idempotent; an
array input already carrying the `"v1"` version tag is returned as-is;
and the legacy scalar `"/Intro/Background"` normalizes to the array
`["Intro", "Background"]` with the version tag set. -/
theorem claim9_normalize_idempotent :
    (∀ x : HPValue, normalize (normalize x) = normalize x) ∧
    (∀ hp : List (List Char),
        normalize (HPValue.array hp (some v1Tag)) = HPValue.array hp (some v1Tag)) ∧
    normalize (HPValue.scalar (("/Intro/Background").toList)) =
      HPValue.array [("Intro").toList, ("Background").toList] (some v1Tag) := by
  refine ⟨?_, ?_, by decide⟩
  · intro x
    cases x with
    | scalar s => simp [normalize]
    | array hp v =>
      by_cases hv : v = some v1Tag
      · simp [normalize, hv]
      · simp [normalize, hv]
  · intro hp
    simp [normalize]

/-- Claim C10: every chunk the engine emits (at header transitions and
at end of input) has a text containing at least one non-whitespace
character, and content that is empty or all-whitespace yields zero
chunks. -/
theorem claim10_no_blank_chunks :
    (∀ (ls : List (List Char)) (c : Chunk), c ∈ chunkLines ls → blankStr c.text = false) ∧
    (∀ s : List Char, (∀ ch ∈ s, isWs ch = true) → chunkContent s = []) := by
  constructor
  · intro ls c hc
    exact finishScan_chunks_nonblank _
      (foldl_chunks_nonblank ls initState (by simp [initState])) c hc
  · intro s hs
    rw [chunkContent, chunkLines]
    refine blank_scan (splitSep '\n' s) initState ?_ rfl rfl rfl
    intro l hl
    simp only [blankStr, List.all_eq_true]
    intro ch hch
    exact hs ch (splitSep_chars '\n' s l ch hl hch)

/-- Witness for C10: the single chunk of `"# W"` is non-blank, and the
all-whitespace content `"  "` yields no chunks. -/
theorem claim10_no_blank_chunks_witness :
    blankStr (Chunk.text { text := ("# W\n").toList, header_path := [("W").toList] }) = false ∧
    chunkContent (("  ").toList) = [] := by
  exact ⟨claim10_no_blank_chunks.1 [("# W").toList]
      { text := ("# W\n").toList, header_path := [("W").toList] } (by decide),
    claim10_no_blank_chunks.2 (("  ").toList) (by decide)⟩

end Ragflow
